import Mathlib

/-!
Shallow embedding of the word-search puzzle generator in
`app/word_search.py` (class `WordSearchGenerator`).

The Python source is modelled as follows:
* a word (Python `str`) is a `List Char`;
* the mutable `self.grid` (a list of lists of one-character strings) is a
  `List (List Char)`, threaded explicitly through the functions;
* the ambient `random` module is modelled by an explicit stream of draws
  `s : Nat → Nat` together with a cursor `k`; `random.randint(0, n-1)`
  consumes one draw reduced mod `n`, `random.choice(l)` consumes one draw
  reduced mod `l.length`.  A fixed seed of Python's PRNG corresponds to a
  fixed stream.
* `word_locations` (a Python `dict`, insertion ordered) is an association
  list with Python's assignment semantics (`dictInsert`).
-/

namespace WordSearch

/-- A word: Python `str` as a list of characters. -/
abbrev Word := List Char

/-- The puzzle grid: `self.grid`, a list of rows of characters. -/
abbrev Grid := List (List Char)

/-- ASCII model of Python whitespace, as tested by `str.strip()`. -/
def isPySpace (c : Char) : Bool :=
  c = ' ' || c = '\t' || c = '\n' || c = '\r' || c = '\x0b' || c = '\x0c'

/-- ASCII fragment of Python `str.upper` on a single character. -/
def pyUpper (c : Char) : Char :=
  if 'a' ≤ c ∧ c ≤ 'z' then Char.ofNat (c.toNat - 32) else c

/-- Python `str.strip`: drop leading and trailing whitespace.  (Used only to
compare the source's behaviour with the spec's "entries are trimmed".) -/
def pyStrip (w : Word) : Word :=
  ((w.dropWhile isPySpace).reverse.dropWhile isPySpace).reverse

/-- Line 28 of the source:
`self.word_list = [word.upper() for word in word_list if word.strip()]` —
keep the entries whose `strip()` is non-empty (i.e. that contain a
non-whitespace character) and uppercase them. -/
def initWordList (word_list : List Word) : List Word :=
  (word_list.filter (fun w => w.any (fun c => !(isPySpace c)))).map
    (fun w => w.map pyUpper)

/-- `self.directions`: the eight unit direction vectors, in source order. -/
def directions : List (Int × Int) :=
  [(0, 1), (1, 0), (1, 1), (1, -1), (0, -1), (-1, 0), (-1, 1), (-1, -1)]

/-- `[[" " for _ in range(n)] for _ in range(n)]` for a natural size. -/
def mkGrid (n : Nat) : Grid :=
  List.replicate n (List.replicate n ' ')

/-- Line 31 of the source with the raw constructor argument: Python's
`range(grid_size)` is empty for a non-positive integer size, so the grid has
`max grid_size 0` rows. -/
def initGrid (grid_size : Int) : Grid :=
  List.replicate grid_size.toNat (List.replicate grid_size.toNat ' ')

/-- `self.grid[r][c]` (all accesses performed by the source are in bounds;
out-of-range reads are totalised to the blank sentinel). -/
def getCell (g : Grid) (r c : Nat) : Char :=
  (g.getD r []).getD c ' '

/-- `self.grid[r][c] = ch` (out-of-range writes are a no-op, matching
`List.set`; the source only writes in bounds). -/
def setCell (g : Grid) (r c : Nat) (ch : Char) : Grid :=
  g.set r ((g.getD r []).set c ch)

/-- Lines 86–95 of `_place_word`: walk the word's letters from `(r, c)` with
step `(rs, cs)`; a non-blank cell holding a different letter aborts the scan
(`can_place = False`), otherwise the visited positions are collected.  No
cell is written during the scan. -/
def collectPositions (g : Grid) : Word → Int → Int → Int → Int →
    Option (List (Nat × Nat))
  | [], _, _, _, _ => some []
  | ch :: rest, r, c, rs, cs =>
    let cell := getCell g r.toNat c.toNat
    if cell ≠ ' ' ∧ cell ≠ ch then none
    else
      match collectPositions g rest (r + rs) (c + cs) rs cs with
      | none => none
      | some ps => some ((r.toNat, c.toNat) :: ps)

/-- Lines 99–100 of `_place_word`: write each letter of the word at the
corresponding collected position. -/
def writeWord (g : Grid) : Word → List (Nat × Nat) → Grid
  | ch :: rest, p :: ps => writeWord (setCell g p.1 p.2 ch) rest ps
  | _, _ => g

/-- One placement attempt (lines 76–103 of `_place_word`): bounds-check the
end cell, scan the path for conflicts, and only then write the word.
Returns the (possibly updated) grid and the recorded positions on
success. -/
def attemptPlace (N : Nat) (g : Grid) (word : Word) (row col rs cs : Int) :
    Grid × Option (List (Nat × Nat)) :=
  if 0 ≤ row + ((word.length : Int) - 1) * rs ∧
      row + ((word.length : Int) - 1) * rs < (N : Int) ∧
      0 ≤ col + ((word.length : Int) - 1) * cs ∧
      col + ((word.length : Int) - 1) * cs < (N : Int) then
    match collectPositions g word row col rs cs with
    | some ps => (writeWord g word ps, some ps)
    | none => (g, none)
  else (g, none)

/-- The `while attempts < self.max_attempts` loop of `_place_word`: each
attempt draws a start row, a start column and a direction from the random
stream (three draws), tries `attemptPlace`, and stops on the first success.
Returns the grid, the recorded positions (if any) and the new stream
cursor. -/
def placeWordAux (N : Nat) (word : Word) (s : Nat → Nat) :
    Nat → Grid → Nat → Grid × Option (List (Nat × Nat)) × Nat
  | 0, g, k => (g, none, k)
  | fuel + 1, g, k =>
    match attemptPlace N g word ((s k % N : Nat) : Int)
        ((s (k + 1) % N : Nat) : Int)
        (directions.getD (s (k + 2) % directions.length) (0, 1)).1
        (directions.getD (s (k + 2) % directions.length) (0, 1)).2 with
    | (g', some ps) => (g', some ps, k + 3)
    | (g', none) => placeWordAux N word s fuel g' (k + 3)

/-- `_place_word` with an attempt budget of `A`. -/
def place_word (N A : Nat) (word : Word) (g : Grid) (s : Nat → Nat)
    (k : Nat) : Grid × Option (List (Nat × Nat)) × Nat :=
  placeWordAux N word s A g k

/-- Python `dict` assignment `d[key] = v` on an insertion-ordered
association list: an existing key keeps its position and gets the new
value, a new key is appended. -/
def dictInsert (d : List (Word × List (Nat × Nat))) (key : Word)
    (v : List (Nat × Nat)) : List (Word × List (Nat × Nat)) :=
  if d.any (fun p => p.1 == key) then
    d.map (fun p => if p.1 == key then (key, v) else p)
  else d ++ [(key, v)]

/-- The mutable state of a `WordSearchGenerator` during `generate_puzzle`:
grid, `self.placed_words`, `self.word_locations`, and the random-stream
cursor. -/
structure GenState where
  grid : Grid
  placed_words : List Word
  word_locations : List (Word × List (Nat × Nat))
  rk : Nat
deriving DecidableEq, Repr

/-- The `for word in words` loop of `generate_puzzle` (lines 50–54): try to
place each word; on success append it to `placed_words` (the location map
was updated inside `_place_word`), on failure only print a warning. -/
def processWords (N A : Nat) (s : Nat → Nat) :
    List Word → GenState → GenState
  | [], st => st
  | w :: ws, st =>
    match place_word N A w st.grid s st.rk with
    | (g', some ps, k') =>
      processWords N A s ws
        { grid := g', placed_words := st.placed_words ++ [w],
          word_locations := dictInsert st.word_locations w ps, rk := k' }
    | (g', none, k') =>
      processWords N A s ws
        { grid := g', placed_words := st.placed_words,
          word_locations := st.word_locations, rk := k' }

/-- The row-major traversal order of `_fill_empty_cells`. -/
def coords (N : Nat) : List (Nat × Nat) :=
  ((List.range N).map (fun r => (List.range N).map (fun c => (r, c)))).flatten

/-- `random.choice(string.ascii_uppercase)` given a raw draw. -/
def letterOf (d : Nat) : Char :=
  Char.ofNat ('A'.toNat + d % 26)

/-- `_fill_empty_cells` over a list of cells: write a random uppercase
letter into each still-blank cell (one draw per blank cell). -/
def fillCells (s : Nat → Nat) : List (Nat × Nat) → Grid → Nat → Grid × Nat
  | [], g, k => (g, k)
  | p :: rest, g, k =>
    if getCell g p.1 p.2 = ' ' then
      fillCells s rest (setCell g p.1 p.2 (letterOf (s k))) (k + 1)
    else fillCells s rest g k

/-- `_fill_empty_cells` (lines 109–114). -/
def fill_empty_cells (N : Nat) (g : Grid) (s : Nat → Nat) (k : Nat) :
    Grid × Nat :=
  fillCells s (coords N) g k

/-- Insert `w` into a list sorted by non-increasing length, before the first
element whose length does not exceed `w`'s. -/
def insertDesc (w : Word) : List Word → List Word
  | [] => [w]
  | x :: xs => if x.length ≤ w.length then w :: x :: xs else x :: insertDesc w xs

/-- `sorted(self.word_list, key=len, reverse=True)` (line 48).  Python's
`sorted` is documented to be a stable sort, and with `reverse=True` it
orders by non-increasing key while preserving the relative order of
equal-key elements; this stable insertion sort computes exactly that
ordering. -/
def sortWords : List Word → List Word
  | [] => []
  | w :: ws => insertDesc w (sortWords ws)

/-- The outputs of `generate_puzzle` that the caller and the renderer see:
the final grid, `placed_words`, and `word_locations`. -/
structure PuzzleResult where
  grid : Grid
  placed_words : List Word
  word_locations : List (Word × List (Nat × Nat))
deriving DecidableEq, Repr

/-- `WordSearchGenerator(word_list, grid_size, max_attempts)` followed by
`generate_puzzle()`: normalise the word list, sort it by descending length,
place the words in that order, then fill the blank cells. -/
def generate_puzzle (word_list : List Word) (grid_size attempts : Nat)
    (s : Nat → Nat) : PuzzleResult :=
  let wl := initWordList word_list
  let st0 : GenState :=
    { grid := mkGrid grid_size, placed_words := [], word_locations := [],
      rk := 0 }
  let st1 := processWords grid_size attempts s (sortWords wl) st0
  let g2 := (fill_empty_cells grid_size st1.grid s st1.rk).1
  { grid := g2, placed_words := st1.placed_words,
    word_locations := st1.word_locations }

/-- Reading the grid along a placement path. -/
def readCells (g : Grid) (ps : List (Nat × Nat)) : Word :=
  ps.map (fun p => getCell g p.1 p.2)

/-- The `Word` precondition of the spec: non-empty, uppercase letters only
(hence no whitespace). -/
def ValidWord (w : Word) : Prop :=
  w ≠ [] ∧ ∀ c ∈ w, 'A' ≤ c ∧ c ≤ 'Z'

instance : DecidablePred ValidWord := fun w => by
  unfold ValidWord; infer_instance

/-- A cell value that is one of the 26 uppercase letters. -/
def isUpperCh (c : Char) : Prop := 'A' ≤ c ∧ c ≤ 'Z'

instance : DecidablePred isUpperCh := fun c => by
  unfold isUpperCh; infer_instance

/-- The grid is a well-formed `N × N` matrix. -/
def GridWF (g : Grid) (N : Nat) : Prop :=
  g.length = N ∧ ∀ row ∈ g, row.length = N

/-- Every cell is blank or an uppercase letter. -/
def blankOrUpper (g : Grid) : Prop :=
  ∀ r c, getCell g r c = ' ' ∨ isUpperCh (getCell g r c)

/-! ### Basic grid lemmas -/

theorem getCell_mkGrid (N r c : Nat) : getCell (mkGrid N) r c = ' ' := by
  unfold getCell mkGrid
  rcases Nat.lt_or_ge r N with h | h
  · have h1 : r < (List.replicate N (List.replicate N ' ')).length := by
      rw [List.length_replicate]; exact h
    rw [List.getD_eq_getElem _ _ h1, List.getElem_replicate]
    rcases Nat.lt_or_ge c N with h2 | h2
    · have h3 : c < (List.replicate N ' ').length := by
        rw [List.length_replicate]; exact h2
      rw [List.getD_eq_getElem _ _ h3, List.getElem_replicate]
    · exact List.getD_eq_default _ _ (by rw [List.length_replicate]; exact h2)
  · rw [List.getD_eq_default (List.replicate N (List.replicate N ' ')) []
      (by rw [List.length_replicate]; exact h), List.getD_nil]

theorem mkGrid_wf (N : Nat) : GridWF (mkGrid N) N := by
  constructor
  · simp [mkGrid]
  · intro row hmem
    unfold mkGrid at hmem
    rw [List.mem_replicate] at hmem
    rw [hmem.2, List.length_replicate]

theorem rowLen_of_wf {g : Grid} {N : Nat} (hwf : GridWF g N) {r : Nat}
    (hr : r < N) : (g.getD r []).length = N := by
  obtain ⟨hlen, hrow⟩ := hwf
  have hrg : r < g.length := by omega
  rw [List.getD_eq_getElem _ _ hrg]
  exact hrow _ (List.getElem_mem hrg)

theorem setCell_wf {g : Grid} {N : Nat} (hwf : GridWF g N) (r c : Nat)
    (ch : Char) : GridWF (setCell g r c ch) N := by
  obtain ⟨hlen, hrow⟩ := hwf
  constructor
  · simpa [setCell] using hlen
  · intro row hmem
    unfold setCell at hmem
    rcases Nat.lt_or_ge r g.length with hr | hr
    · rcases List.mem_or_eq_of_mem_set hmem with h1 | h1
      · exact hrow _ h1
      · subst h1
        rw [List.length_set]
        exact rowLen_of_wf ⟨hlen, hrow⟩ (by omega)
    · rw [List.set_eq_of_length_le (by omega)] at hmem
      exact hrow _ hmem

theorem getCell_setCell_self {g : Grid} {N : Nat} (hwf : GridWF g N)
    {r c : Nat} (hr : r < N) (hc : c < N) (ch : Char) :
    getCell (setCell g r c ch) r c = ch := by
  have hrowlen : (g.getD r []).length = N := rowLen_of_wf hwf hr
  obtain ⟨hlen, _⟩ := hwf
  have hrg : r < g.length := by omega
  unfold getCell setCell
  have h1 : r < (g.set r ((g.getD r []).set c ch)).length := by
    rw [List.length_set]; exact hrg
  rw [List.getD_eq_getElem _ _ h1, List.getElem_set_self h1]
  have h2 : c < ((g.getD r []).set c ch).length := by
    rw [List.length_set, hrowlen]; exact hc
  rw [List.getD_eq_getElem _ _ h2, List.getElem_set_self h2]

theorem getD_set_ne {α : Type} {l : List α} {i j : Nat} (h : i ≠ j)
    (a d : α) : (l.set i a).getD j d = l.getD j d := by
  rw [List.getD_eq_getElem?_getD, List.getD_eq_getElem?_getD,
    List.getElem?_set_ne h]

theorem getCell_setCell_ne {g : Grid} {r c r' c' : Nat}
    (h : r' ≠ r ∨ c' ≠ c) (ch : Char) :
    getCell (setCell g r c ch) r' c' = getCell g r' c' := by
  unfold getCell setCell
  rcases eq_or_ne r' r with rfl | hne
  · have hc : c' ≠ c := by tauto
    rcases Nat.lt_or_ge r' g.length with hr | hr
    · have hrow : (g.set r' ((g.getD r' []).set c ch)).getD r' []
          = (g.getD r' []).set c ch := by
        rw [List.getD_eq_getElem _ _ (by rw [List.length_set]; exact hr)]
        exact List.getElem_set_self (by rw [List.length_set]; exact hr)
      rw [hrow, getD_set_ne (fun hh => hc hh.symm)]
    · rw [List.set_eq_of_length_le (by omega)]
  · rw [getD_set_ne (fun hh => hne hh.symm)]

/-! ### Scan and write lemmas -/

/-- The cell visited at step `i` of a walk from `(row, col)` with step
`(rs, cs)`. -/
def posAt (row col rs cs : Int) (i : Nat) : Nat × Nat :=
  ((row + i * rs).toNat, (col + i * cs).toNat)

theorem posAt_zero (row col rs cs : Int) :
    posAt row col rs cs 0 = (row.toNat, col.toNat) := by
  simp [posAt]

theorem posAt_succ (row col rs cs : Int) (i : Nat) :
    posAt row col rs cs (i + 1) = posAt (row + rs) (col + cs) rs cs i := by
  unfold posAt
  have h1 : row + ((i + 1 : Nat) : Int) * rs = row + rs + (i : Int) * rs := by
    push_cast; ring
  have h2 : col + ((i + 1 : Nat) : Int) * cs = col + cs + (i : Int) * cs := by
    push_cast; ring
  rw [h1, h2]

theorem collectPositions_shape {g : Grid} :
    ∀ (w : Word) (row col rs cs : Int) (ps : List (Nat × Nat)),
    collectPositions g w row col rs cs = some ps →
    ps = (List.range w.length).map (posAt row col rs cs) := by
  intro w
  induction w with
  | nil =>
    intro row col rs cs ps h
    simp only [collectPositions, Option.some.injEq] at h
    simp [← h]
  | cons ch rest ih =>
    intro row col rs cs ps h
    unfold collectPositions at h
    by_cases hcell : getCell g row.toNat col.toNat ≠ ' ' ∧
        getCell g row.toNat col.toNat ≠ ch
    · simp [hcell] at h
    · rw [if_neg hcell] at h
      cases hrec : collectPositions g rest (row + rs) (col + cs) rs cs with
      | none => rw [hrec] at h; exact absurd h (by simp)
      | some ps' =>
        rw [hrec] at h
        simp only [Option.some.injEq] at h
        have hih := ih (row + rs) (col + cs) rs cs ps' hrec
        rw [← h, hih, List.length_cons, List.range_succ_eq_map,
          List.map_cons, List.map_map, posAt_zero]
        congr 1
        apply List.map_congr_left
        intro i _
        show posAt (row + rs) (col + cs) rs cs i = posAt row col rs cs (i + 1)
        rw [posAt_succ]

theorem collectPositions_compat {g : Grid} :
    ∀ (w : Word) (row col rs cs : Int) (ps : List (Nat × Nat)),
    collectPositions g w row col rs cs = some ps →
    ∀ i, (hi : i < w.length) →
      getCell g (row + i * rs).toNat (col + i * cs).toNat = ' ' ∨
      getCell g (row + i * rs).toNat (col + i * cs).toNat = w.get ⟨i, hi⟩ := by
  intro w
  induction w with
  | nil => intro _ _ _ _ _ _ i hi; exact absurd hi (by simp)
  | cons ch rest ih =>
    intro row col rs cs ps h i hi
    unfold collectPositions at h
    by_cases hcell : getCell g row.toNat col.toNat ≠ ' ' ∧
        getCell g row.toNat col.toNat ≠ ch
    · simp [hcell] at h
    · rw [if_neg hcell] at h
      cases hrec : collectPositions g rest (row + rs) (col + cs) rs cs with
      | none => rw [hrec] at h; exact absurd h (by simp)
      | some ps' =>
        cases i with
        | zero =>
          simp only [Nat.cast_zero, zero_mul, add_zero, List.get]
          tauto
        | succ j =>
          have hj : j < rest.length := by
            simpa [Nat.succ_lt_succ_iff] using hi
          have := ih (row + rs) (col + cs) rs cs ps' hrec j hj
          have harith : ∀ v s : Int, v + s + (j : Int) * s
              = v + ((j : Nat) + 1 : Nat) * s := by
            intro v s; push_cast; ring
          rw [harith row rs, harith col cs] at this
          simpa using this

theorem collectPositions_none_of_conflict {g : Grid} (w : Word)
    (row col rs cs : Int)
    (h : ∃ i, ∃ hi : i < w.length,
      getCell g (row + i * rs).toNat (col + i * cs).toNat ≠ ' ' ∧
      getCell g (row + i * rs).toNat (col + i * cs).toNat ≠ w.get ⟨i, hi⟩) :
    collectPositions g w row col rs cs = none := by
  cases hc : collectPositions g w row col rs cs with
  | none => rfl
  | some ps =>
    obtain ⟨i, hi, h1, h2⟩ := h
    rcases collectPositions_compat w row col rs cs ps hc i hi with h3 | h3
    · exact absurd h3 h1
    · exact absurd h3 h2

theorem writeWord_nil_ps (g : Grid) (w : Word) : writeWord g w [] = g := by
  cases w <;> rfl

theorem writeWord_frame {r c : Nat} :
    ∀ (ps : List (Nat × Nat)) (w : Word) (g : Grid), (r, c) ∉ ps →
    getCell (writeWord g w ps) r c = getCell g r c := by
  intro ps
  induction ps with
  | nil => intro w g _; rw [writeWord_nil_ps]
  | cons p ps ih =>
    intro w g hmem
    cases w with
    | nil => rfl
    | cons ch rest =>
      have h1 : (r, c) ∉ ps := fun hh => hmem (List.mem_cons.mpr (Or.inr hh))
      have h2 : (r, c) ≠ p := fun hh => hmem (List.mem_cons.mpr (Or.inl hh))
      show getCell (writeWord (setCell g p.1 p.2 ch) rest ps) r c = _
      rw [ih rest _ h1]
      apply getCell_setCell_ne
      by_contra hcon
      push_neg at hcon
      exact h2 (by rw [hcon.1, hcon.2])

theorem writeWord_wf {N : Nat} :
    ∀ (ps : List (Nat × Nat)) (w : Word) (g : Grid), GridWF g N →
    GridWF (writeWord g w ps) N := by
  intro ps
  induction ps with
  | nil => intro w g hwf; rw [writeWord_nil_ps]; exact hwf
  | cons p ps ih =>
    intro w g hwf
    cases w with
    | nil => exact hwf
    | cons ch rest => exact ih rest _ (setCell_wf hwf p.1 p.2 ch)

theorem readCells_cons (g : Grid) (p : Nat × Nat) (ps : List (Nat × Nat)) :
    readCells g (p :: ps) = getCell g p.1 p.2 :: readCells g ps := rfl

theorem writeWord_readCells {N : Nat} :
    ∀ (ps : List (Nat × Nat)) (w : Word) (g : Grid), GridWF g N →
    ps.length = w.length → ps.Nodup → (∀ p ∈ ps, p.1 < N ∧ p.2 < N) →
    readCells (writeWord g w ps) ps = w := by
  intro ps
  induction ps with
  | nil =>
    intro w g _ hlen _ _
    rw [writeWord_nil_ps]
    cases w
    · rfl
    · exact absurd hlen (by simp)
  | cons p ps ih =>
    intro w g hwf hlen hnd hb
    cases w with
    | nil => exact absurd hlen (by simp)
    | cons ch rest =>
      rw [List.nodup_cons] at hnd
      show readCells (writeWord (setCell g p.1 p.2 ch) rest ps) (p :: ps) = _
      rw [readCells_cons]
      have hbp := hb p (List.mem_cons_self p ps)
      congr 1
      · rw [writeWord_frame ps rest _ hnd.1]
        exact getCell_setCell_self hwf hbp.1 hbp.2 ch
      · exact ih rest _ (setCell_wf hwf p.1 p.2 ch) (by simpa using hlen)
          hnd.2 (fun q hq => hb q (List.mem_cons.mpr (Or.inr hq)))

theorem getCell_setCell_cases (g : Grid) (r c rr cc : Nat) (ch : Char) :
    getCell (setCell g rr cc ch) r c = getCell g r c ∨
    getCell (setCell g rr cc ch) r c = ch := by
  rcases eq_or_ne r rr with rfl | hne
  · rcases eq_or_ne c cc with rfl | hnec
    · unfold getCell setCell
      rcases Nat.lt_or_ge r g.length with hr | hr
      · have hrow : (g.set r ((g.getD r []).set c ch)).getD r []
            = (g.getD r []).set c ch := by
          rw [List.getD_eq_getElem _ _ (by rw [List.length_set]; exact hr)]
          exact List.getElem_set_self (by rw [List.length_set]; exact hr)
        rw [hrow]
        rcases Nat.lt_or_ge c (g.getD r []).length with hc | hc
        · right
          rw [List.getD_eq_getElem _ _ (by rw [List.length_set]; exact hc)]
          exact List.getElem_set_self (by rw [List.length_set]; exact hc)
        · left
          rw [List.set_eq_of_length_le (by omega)]
      · left
        rw [List.set_eq_of_length_le (by omega)]
    · left; exact getCell_setCell_ne (Or.inr hnec) ch
  · left; exact getCell_setCell_ne (Or.inl hne) ch

theorem writeWord_getCell_cases :
    ∀ (ps : List (Nat × Nat)) (w : Word) (g : Grid) (r c : Nat),
    getCell (writeWord g w ps) r c = getCell g r c ∨
    ∃ ch ∈ w, getCell (writeWord g w ps) r c = ch := by
  intro ps
  induction ps with
  | nil => intro w g r c; rw [writeWord_nil_ps]; exact Or.inl rfl
  | cons p ps ih =>
    intro w g r c
    cases w with
    | nil => exact Or.inl rfl
    | cons ch rest =>
      have hstep : writeWord g (ch :: rest) (p :: ps)
          = writeWord (setCell g p.1 p.2 ch) rest ps := rfl
      rw [hstep]
      rcases ih rest (setCell g p.1 p.2 ch) r c with h | ⟨ch', hm, hv⟩
      · rw [h]
        rcases getCell_setCell_cases g r c p.1 p.2 ch with h2 | h2
        · exact Or.inl h2
        · exact Or.inr ⟨ch, List.mem_cons_self ch rest, h2⟩
      · exact Or.inr ⟨ch', List.mem_cons.mpr (Or.inr hm), hv⟩

/-! ### Bounds along a placement walk -/

theorem walk_bound {row rs : Int} {L N i : Nat}
    (hr0 : 0 ≤ row) (hrN : row < (N : Int))
    (he0 : 0 ≤ row + ((L : Int) - 1) * rs)
    (heN : row + ((L : Int) - 1) * rs < (N : Int)) (hi : i < L) :
    0 ≤ row + (i : Int) * rs ∧ row + (i : Int) * rs < (N : Int) := by
  have hiL : (i : Int) ≤ (L : Int) - 1 := by
    have : (i : Int) < (L : Int) := by exact_mod_cast hi
    omega
  have hi0 : 0 ≤ (i : Int) := Int.natCast_nonneg i
  rcases le_or_lt 0 rs with hrs | hrs
  · have h1 : 0 ≤ (i : Int) * rs := mul_nonneg hi0 hrs
    have h2 : (i : Int) * rs ≤ ((L : Int) - 1) * rs :=
      mul_le_mul_of_nonneg_right hiL hrs
    constructor <;> linarith
  · have h1 : (i : Int) * rs ≤ (i : Int) * 0 :=
      mul_le_mul_of_nonneg_left (le_of_lt hrs) hi0
    rw [mul_zero] at h1
    have h2 : ((L : Int) - 1) * rs ≤ (i : Int) * rs :=
      mul_le_mul_of_nonpos_right hiL (le_of_lt hrs)
    constructor <;> linarith

theorem posAt_nodup {row col rs cs : Int} {L : Nat}
    (hdir : ¬(rs = 0 ∧ cs = 0))
    (hb : ∀ i, i < L → 0 ≤ row + (i : Int) * rs ∧ 0 ≤ col + (i : Int) * cs) :
    ((List.range L).map (posAt row col rs cs)).Nodup := by
  apply List.Nodup.map_on _ (List.nodup_range L)
  intro i hi j hj hij
  rw [List.mem_range] at hi hj
  unfold posAt at hij
  have h1 := congrArg Prod.fst hij
  have h2 := congrArg Prod.snd hij
  simp only at h1 h2
  have hb1 := hb i hi
  have hb2 := hb j hj
  have e1 : row + (i : Int) * rs = row + (j : Int) * rs := by
    have h3 := congrArg (fun n : Nat => (n : Int)) h1
    simp only at h3
    rwa [Int.toNat_of_nonneg hb1.1, Int.toNat_of_nonneg hb2.1] at h3
  have e2 : col + (i : Int) * cs = col + (j : Int) * cs := by
    have h3 := congrArg (fun n : Nat => (n : Int)) h2
    simp only at h3
    rwa [Int.toNat_of_nonneg hb1.2, Int.toNat_of_nonneg hb2.2] at h3
  have e1m : (i : Int) * rs = (j : Int) * rs := by linarith
  have e2m : (i : Int) * cs = (j : Int) * cs := by linarith
  by_cases hrs : rs = 0
  · have hcs : cs ≠ 0 := fun h => hdir ⟨hrs, h⟩
    have : (i : Int) = (j : Int) := mul_right_cancel₀ hcs e2m
    exact_mod_cast this
  · have : (i : Int) = (j : Int) := mul_right_cancel₀ hrs e1m
    exact_mod_cast this

theorem writeWord_preserves_nonblank {N : Nat} :
    ∀ (ps : List (Nat × Nat)) (w : Word) (g : Grid), GridWF g N →
    ps.length = w.length → ps.Nodup →
    (∀ p ∈ ps, p.1 < N ∧ p.2 < N) →
    (∀ i (hip : i < ps.length) (hi : i < w.length),
      getCell g (ps.get ⟨i, hip⟩).1 (ps.get ⟨i, hip⟩).2 = ' ' ∨
      getCell g (ps.get ⟨i, hip⟩).1 (ps.get ⟨i, hip⟩).2 = w.get ⟨i, hi⟩) →
    ∀ r c, getCell g r c ≠ ' ' →
    getCell (writeWord g w ps) r c = getCell g r c := by
  intro ps
  induction ps with
  | nil => intro w g _ _ _ _ _ r c _; rw [writeWord_nil_ps]
  | cons p ps ih =>
    intro w g hwf hlen hnd hb hcompat r c hnb
    cases w with
    | nil => exact absurd hlen (by simp)
    | cons ch rest =>
      rw [List.nodup_cons] at hnd
      have hbp := hb p (List.mem_cons_self p ps)
      have hc0 := hcompat 0 (by simp) (by simp)
      simp only [List.get] at hc0
      have hstep : writeWord g (ch :: rest) (p :: ps)
          = writeWord (setCell g p.1 p.2 ch) rest ps := rfl
      rw [hstep]
      have hkeep : ∀ r' c', (r', c') ≠ p →
          getCell (setCell g p.1 p.2 ch) r' c' = getCell g r' c' := by
        intro r' c' hne
        apply getCell_setCell_ne
        by_contra hcon
        push_neg at hcon
        exact hne (by rw [hcon.1, hcon.2])
      have hrc : getCell (setCell g p.1 p.2 ch) r c = getCell g r c := by
        rcases eq_or_ne (r, c) p with heq | hne
        · have hv : getCell g p.1 p.2 = ch := by
            rcases hc0 with h | h
            · rw [← heq] at h
              exact absurd h hnb
            · exact h
          rw [← heq] at hv ⊢
          rw [← heq] at hbp
          rw [getCell_setCell_self hwf hbp.1 hbp.2 ch, hv]
        · exact hkeep r c hne
      have hih := ih rest (setCell g p.1 p.2 ch)
        (setCell_wf hwf p.1 p.2 ch) (by simpa using hlen) hnd.2
        (fun q hq => hb q (List.mem_cons.mpr (Or.inr hq)))
        ?_ r c (by rw [hrc]; exact hnb)
      · rw [hih, hrc]
      · intro i hip hi
        have hq : ps.get ⟨i, hip⟩ ∈ ps := List.get_mem ps i hip
        have hqne : (ps.get ⟨i, hip⟩).1 ≠ p.1 ∨ (ps.get ⟨i, hip⟩).2 ≠ p.2 := by
          by_contra hcon
          push_neg at hcon
          have : ps.get ⟨i, hip⟩ = p := by
            rw [Prod.ext_iff]
            exact ⟨hcon.1, hcon.2⟩
          rw [this] at hq
          exact hnd.1 hq
        have hkeepq : getCell (setCell g p.1 p.2 ch) (ps.get ⟨i, hip⟩).1
            (ps.get ⟨i, hip⟩).2 = getCell g (ps.get ⟨i, hip⟩).1
            (ps.get ⟨i, hip⟩).2 := getCell_setCell_ne hqne ch
        rw [hkeepq]
        have := hcompat (i + 1) (by simpa using Nat.succ_lt_succ hip)
          (by simpa using Nat.succ_lt_succ hi)
        simpa [List.get] using this

/-! ### Single placement attempt -/

theorem attemptPlace_none {N : Nat} {g g' : Grid} {w : Word}
    {row col rs cs : Int}
    (h : attemptPlace N g w row col rs cs = (g', none)) : g' = g := by
  unfold attemptPlace at h
  split at h
  · cases hc : collectPositions g w row col rs cs with
    | none => rw [hc] at h; exact (congrArg Prod.fst h).symm
    | some ps =>
      rw [hc] at h
      exact absurd (congrArg Prod.snd h) (by simp)
  · exact (congrArg Prod.fst h).symm

theorem attemptPlace_some_bounds {N : Nat} {g g' : Grid} {w : Word}
    {row col rs cs : Int} {ps : List (Nat × Nat)}
    (h : attemptPlace N g w row col rs cs = (g', some ps)) :
    0 ≤ row + ((w.length : Int) - 1) * rs ∧
    row + ((w.length : Int) - 1) * rs < (N : Int) ∧
    0 ≤ col + ((w.length : Int) - 1) * cs ∧
    col + ((w.length : Int) - 1) * cs < (N : Int) := by
  unfold attemptPlace at h
  split at h
  · assumption
  · exact absurd (congrArg Prod.snd h) (by simp)

theorem attemptPlace_some_spec {N : Nat} {g g' : Grid} {w : Word}
    {row col rs cs : Int} {ps : List (Nat × Nat)}
    (hwf : GridWF g N)
    (h : attemptPlace N g w row col rs cs = (g', some ps))
    (hrow : 0 ≤ row ∧ row < (N : Int)) (hcol : 0 ≤ col ∧ col < (N : Int))
    (hdir : ¬(rs = 0 ∧ cs = 0)) :
    GridWF g' N ∧ readCells g' ps = w ∧
    (∀ r c, getCell g r c ≠ ' ' → getCell g' r c = getCell g r c) ∧
    (∀ r c, getCell g' r c = getCell g r c ∨ ∃ ch ∈ w, getCell g' r c = ch) := by
  have hbnd := attemptPlace_some_bounds h
  obtain ⟨hb1, hb2, hb3, hb4⟩ := hbnd
  unfold attemptPlace at h
  split at h
  · cases hc : collectPositions g w row col rs cs with
    | none => rw [hc] at h; exact absurd (congrArg Prod.snd h) (by simp)
    | some ps' =>
      rw [hc] at h
      have hg' : g' = writeWord g w ps' := (congrArg Prod.fst h).symm
      have hps : ps = ps' := by
        have h2 := congrArg Prod.snd h
        simpa using h2.symm
      subst hps
      subst hg'
      have hshape := collectPositions_shape w row col rs cs ps hc
      have hlen : ps.length = w.length := by
        rw [hshape, List.length_map, List.length_range]
      have hbAll : ∀ i, i < w.length →
          (0 ≤ row + (i : Int) * rs ∧ row + (i : Int) * rs < (N : Int)) ∧
          (0 ≤ col + (i : Int) * cs ∧ col + (i : Int) * cs < (N : Int)) := by
        intro i hi
        exact ⟨walk_bound hrow.1 hrow.2 hb1 hb2 hi,
          walk_bound hcol.1 hcol.2 hb3 hb4 hi⟩
      have hmem_bound : ∀ p ∈ ps, p.1 < N ∧ p.2 < N := by
        intro p hp
        rw [hshape, List.mem_map] at hp
        obtain ⟨i, hi, hpe⟩ := hp
        rw [List.mem_range] at hi
        have hbi := hbAll i hi
        rw [← hpe]
        exact ⟨(Int.toNat_lt hbi.1.1).mpr hbi.1.2,
          (Int.toNat_lt hbi.2.1).mpr hbi.2.2⟩
      have hnd : ps.Nodup := by
        rw [hshape]
        exact posAt_nodup hdir
          (fun i hi => ⟨(hbAll i hi).1.1, (hbAll i hi).2.1⟩)
      have hget : ∀ i (hip : i < ps.length),
          ps.get ⟨i, hip⟩ = posAt row col rs cs i := by
        intro i hip
        rw [List.get_of_eq hshape, List.get_eq_getElem, List.getElem_map,
          List.getElem_range]
      have hcompat : ∀ i (hip : i < ps.length) (hi : i < w.length),
          getCell g (ps.get ⟨i, hip⟩).1 (ps.get ⟨i, hip⟩).2 = ' ' ∨
          getCell g (ps.get ⟨i, hip⟩).1 (ps.get ⟨i, hip⟩).2
            = w.get ⟨i, hi⟩ := by
        intro i hip hi
        rw [hget i hip]
        exact collectPositions_compat w row col rs cs ps hc i hi
      refine ⟨writeWord_wf ps w g hwf, ?_, ?_, ?_⟩
      · exact writeWord_readCells ps w g hwf hlen hnd hmem_bound
      · exact writeWord_preserves_nonblank ps w g hwf hlen hnd hmem_bound
          hcompat
      · intro r c
        exact writeWord_getCell_cases ps w g r c
  · exact absurd (congrArg Prod.snd h) (by simp)

/-! ### The attempt loop of `_place_word` -/

theorem directions_ok : ∀ d ∈ directions,
    (d.1 = -1 ∨ d.1 = 0 ∨ d.1 = 1) ∧ (d.2 = -1 ∨ d.2 = 0 ∨ d.2 = 1) ∧
    ¬(d.1 = 0 ∧ d.2 = 0) := by decide

theorem getD_mem_of_lt {α : Type} (l : List α) (i : Nat) (d : α)
    (h : i < l.length) : l.getD i d ∈ l := by
  rw [List.getD_eq_getElem _ _ h]
  exact List.getElem_mem h

theorem drawnDir_ok (m : Nat) :
    ((directions.getD (m % directions.length) (0, 1)).1 = -1 ∨
      (directions.getD (m % directions.length) (0, 1)).1 = 0 ∨
      (directions.getD (m % directions.length) (0, 1)).1 = 1) ∧
    ((directions.getD (m % directions.length) (0, 1)).2 = -1 ∨
      (directions.getD (m % directions.length) (0, 1)).2 = 0 ∨
      (directions.getD (m % directions.length) (0, 1)).2 = 1) ∧
    ¬((directions.getD (m % directions.length) (0, 1)).1 = 0 ∧
      (directions.getD (m % directions.length) (0, 1)).2 = 0) := by
  have hlen : 0 < directions.length := by decide
  exact directions_ok _ (getD_mem_of_lt directions _ (0, 1)
    (Nat.mod_lt m hlen))

theorem placeWordAux_none {N : Nat} {w : Word} {s : Nat → Nat} :
    ∀ (fuel : Nat) (g g' : Grid) (k k' : Nat),
    placeWordAux N w s fuel g k = (g', none, k') → g' = g := by
  intro fuel
  induction fuel with
  | zero =>
    intro g g' k k' h
    unfold placeWordAux at h
    exact (congrArg Prod.fst h).symm
  | succ fuel ih =>
    intro g g' k k' h
    unfold placeWordAux at h
    cases ha : attemptPlace N g w ((s k % N : Nat) : Int)
        ((s (k + 1) % N : Nat) : Int)
        (directions.getD (s (k + 2) % directions.length) (0, 1)).1
        (directions.getD (s (k + 2) % directions.length) (0, 1)).2 with
    | mk g2 res =>
      cases res with
      | some ps =>
        rw [ha] at h
        exact absurd (congrArg (fun x => x.2.1) h) (by simp)
      | none =>
        rw [ha] at h
        have h2 := ih g2 g' (k + 3) k' h
        rw [h2]
        exact attemptPlace_none ha

theorem placeWordAux_some {N : Nat} {w : Word} {s : Nat → Nat} :
    ∀ (fuel : Nat) (g g' : Grid) (k k' : Nat) (ps : List (Nat × Nat)),
    placeWordAux N w s fuel g k = (g', some ps, k') →
    ∃ row col rs cs : Int,
      0 ≤ row ∧ row < (N : Int) ∧ 0 ≤ col ∧ col < (N : Int) ∧
      (rs = -1 ∨ rs = 0 ∨ rs = 1) ∧ (cs = -1 ∨ cs = 0 ∨ cs = 1) ∧
      ¬(rs = 0 ∧ cs = 0) ∧
      attemptPlace N g w row col rs cs = (g', some ps) := by
  intro fuel
  induction fuel with
  | zero =>
    intro g g' k k' ps h
    unfold placeWordAux at h
    exact absurd (congrArg (fun x => x.2.1) h) (by simp)
  | succ fuel ih =>
    intro g g' k k' ps h
    unfold placeWordAux at h
    cases ha : attemptPlace N g w ((s k % N : Nat) : Int)
        ((s (k + 1) % N : Nat) : Int)
        (directions.getD (s (k + 2) % directions.length) (0, 1)).1
        (directions.getD (s (k + 2) % directions.length) (0, 1)).2 with
    | mk g2 res =>
      cases res with
      | some ps2 =>
        rw [ha] at h
        have hg : g2 = g' := congrArg Prod.fst h
        have hps : ps2 = ps := by
          have h2 := congrArg (fun x => x.2.1) h
          simpa using h2
        rw [hg, hps] at ha
        have hbnd := attemptPlace_some_bounds ha
        have hN : 0 < N := by
          have h1 := hbnd.1
          have h2 := hbnd.2.1
          by_contra hcon
          push_neg at hcon
          interval_cases N
          simp only [Nat.cast_zero] at h2
          omega
        have hdir := drawnDir_ok (s (k + 2))
        exact ⟨((s k % N : Nat) : Int), ((s (k + 1) % N : Nat) : Int), _, _,
          Int.natCast_nonneg _, by exact_mod_cast Nat.mod_lt _ hN,
          Int.natCast_nonneg _, by exact_mod_cast Nat.mod_lt _ hN,
          hdir.1, hdir.2.1, hdir.2.2, ha⟩
      | none =>
        rw [ha] at h
        have hg2 : g2 = g := attemptPlace_none ha
        rw [hg2] at h
        exact ih g g' (k + 3) k' ps h

theorem place_word_none {N A : Nat} {w : Word} {g g' : Grid} {s : Nat → Nat}
    {k k' : Nat} (h : place_word N A w g s k = (g', none, k')) : g' = g :=
  placeWordAux_none A g g' k k' h

theorem place_word_some {N A : Nat} {w : Word} {g g' : Grid} {s : Nat → Nat}
    {k k' : Nat} {ps : List (Nat × Nat)}
    (h : place_word N A w g s k = (g', some ps, k')) :
    ∃ row col rs cs : Int,
      0 ≤ row ∧ row < (N : Int) ∧ 0 ≤ col ∧ col < (N : Int) ∧
      (rs = -1 ∨ rs = 0 ∨ rs = 1) ∧ (cs = -1 ∨ cs = 0 ∨ cs = 1) ∧
      ¬(rs = 0 ∧ cs = 0) ∧
      attemptPlace N g w row col rs cs = (g', some ps) :=
  placeWordAux_some A g g' k k' ps h

theorem attemptPlace_some_length {N : Nat} {g g' : Grid} {w : Word}
    {row col rs cs : Int} {ps : List (Nat × Nat)}
    (h : attemptPlace N g w row col rs cs = (g', some ps))
    (hr0 : 0 ≤ row) (hrN : row < (N : Int)) (hc0 : 0 ≤ col)
    (hcN : col < (N : Int)) (hrs : rs = -1 ∨ rs = 0 ∨ rs = 1)
    (hcs : cs = -1 ∨ cs = 0 ∨ cs = 1) (hd : ¬(rs = 0 ∧ cs = 0)) :
    w.length ≤ N := by
  have hb := attemptPlace_some_bounds h
  obtain ⟨h1, h2, h3, h4⟩ := hb
  rcases hrs with rfl | rfl | rfl
  · rw [mul_neg_one] at h1 h2
    omega
  · rcases hcs with rfl | rfl | rfl
    · rw [mul_neg_one] at h3 h4
      omega
    · exact absurd ⟨rfl, rfl⟩ hd
    · rw [mul_one] at h3 h4
      omega
  · rw [mul_one] at h1 h2
    omega

theorem attemptPlace_fail_of_too_long {N : Nat} {g : Grid} {w : Word}
    {row col rs cs : Int} (hL : N < w.length)
    (hr0 : 0 ≤ row) (hc0 : 0 ≤ col)
    (hrN : N = 0 ∨ row < (N : Int)) (hcN : N = 0 ∨ col < (N : Int))
    (hrs : rs = -1 ∨ rs = 0 ∨ rs = 1) (hcs : cs = -1 ∨ cs = 0 ∨ cs = 1)
    (hd : ¬(rs = 0 ∧ cs = 0)) :
    attemptPlace N g w row col rs cs = (g, none) := by
  unfold attemptPlace
  rw [if_neg]
  rintro ⟨h1, h2, h3, h4⟩
  rcases hrN with hN | hrN
  · subst hN
    rcases hrs with rfl | rfl | rfl <;>
      simp only [mul_neg_one, mul_zero, mul_one, add_zero,
        Nat.cast_zero] at h1 h2 <;>
      omega
  · rcases hcN with hN | hcN
    · subst hN
      rcases hcs with rfl | rfl | rfl <;>
        simp only [mul_neg_one, mul_zero, mul_one, add_zero,
          Nat.cast_zero] at h3 h4 <;>
        omega
    · rcases hrs with rfl | rfl | rfl
      · rw [mul_neg_one] at h1 h2
        omega
      · rcases hcs with rfl | rfl | rfl
        · rw [mul_neg_one] at h3 h4
          omega
        · exact hd ⟨rfl, rfl⟩
        · rw [mul_one] at h3 h4
          omega
      · rw [mul_one] at h1 h2
        omega

theorem placeWordAux_too_long {N : Nat} {w : Word} (hL : N < w.length)
    {s : Nat → Nat} : ∀ (fuel : Nat) (g : Grid) (k : Nat),
    placeWordAux N w s fuel g k = (g, none, k + 3 * fuel) := by
  intro fuel
  induction fuel with
  | zero => intro g k; unfold placeWordAux; rw [Nat.mul_zero, Nat.add_zero]
  | succ fuel ih =>
    intro g k
    unfold placeWordAux
    have hdir := drawnDir_ok (s (k + 2))
    have hfail : attemptPlace N g w ((s k % N : Nat) : Int)
        ((s (k + 1) % N : Nat) : Int)
        (directions.getD (s (k + 2) % directions.length) (0, 1)).1
        (directions.getD (s (k + 2) % directions.length) (0, 1)).2
        = (g, none) := by
      apply attemptPlace_fail_of_too_long hL (Int.natCast_nonneg _)
        (Int.natCast_nonneg _) ?_ ?_ hdir.1 hdir.2.1 hdir.2.2
      · rcases Nat.eq_zero_or_pos N with hN | hN
        · exact Or.inl hN
        · exact Or.inr (by exact_mod_cast Nat.mod_lt _ hN)
      · rcases Nat.eq_zero_or_pos N with hN | hN
        · exact Or.inl hN
        · exact Or.inr (by exact_mod_cast Nat.mod_lt _ hN)
    rw [hfail]
    show placeWordAux N w s fuel g (k + 3) = _
    rw [ih g (k + 3)]
    have harith : k + 3 + 3 * fuel = k + 3 * (fuel + 1) := by ring
    rw [harith]

/-! ### The word-processing loop of `generate_puzzle` -/

/-- Every recorded location reads back to its word, and no recorded word
contains the blank sentinel. -/
def LocsGood (g : Grid) (locs : List (Word × List (Nat × Nat))) : Prop :=
  ∀ e ∈ locs, readCells g e.2 = e.1 ∧ ∀ ch ∈ e.1, ch ≠ ' '

theorem upper_ne_blank {ch : Char} (h : isUpperCh ch) : ch ≠ ' ' := by
  intro hcon
  subst hcon
  exact absurd h (by decide)

theorem dictInsert_mem {d : List (Word × List (Nat × Nat))} {key : Word}
    {v : List (Nat × Nat)} {e : Word × List (Nat × Nat)}
    (h : e ∈ dictInsert d key v) : e ∈ d ∨ e = (key, v) := by
  unfold dictInsert at h
  split at h
  · rw [List.mem_map] at h
    obtain ⟨p, hp, he⟩ := h
    by_cases hk : (p.1 == key) = true
    · rw [if_pos hk] at he
      exact Or.inr he.symm
    · rw [if_neg hk] at he
      exact Or.inl (he ▸ hp)
  · rcases List.mem_append.mp h with h2 | h2
    · exact Or.inl h2
    · exact Or.inr (by simpa using h2)

theorem processWords_inv {N A : Nat} {s : Nat → Nat} :
    ∀ (ws : List Word) (st : GenState),
    (∀ w ∈ ws, ∀ ch ∈ w, isUpperCh ch) →
    GridWF st.grid N → blankOrUpper st.grid →
    LocsGood st.grid st.word_locations →
    GridWF (processWords N A s ws st).grid N ∧
    blankOrUpper (processWords N A s ws st).grid ∧
    LocsGood (processWords N A s ws st).grid
      (processWords N A s ws st).word_locations := by
  intro ws
  induction ws with
  | nil => intro st _ h1 h2 h3; exact ⟨h1, h2, h3⟩
  | cons w ws ih =>
    intro st hval hwf hbu hlg
    have hvalw : ∀ ch ∈ w, isUpperCh ch :=
      hval w (List.mem_cons_self w ws)
    have hvalws : ∀ w' ∈ ws, ∀ ch ∈ w', isUpperCh ch :=
      fun w' hw' => hval w' (List.mem_cons.mpr (Or.inr hw'))
    unfold processWords
    cases hp : place_word N A w st.grid s st.rk with
    | mk g2 rest2 =>
      cases rest2 with
      | mk res k2 =>
        cases res with
        | none =>
          have hg : g2 = st.grid := place_word_none hp
          subst hg
          exact ih _ hvalws hwf hbu hlg
        | some ps =>
          obtain ⟨row, col, rs, cs, hr0, hrN, hc0, hcN, hrs3, hcs3, hdne,
            hatt⟩ := place_word_some hp
          obtain ⟨hwf2, hread, hpres, hcases⟩ :=
            attemptPlace_some_spec hwf hatt ⟨hr0, hrN⟩ ⟨hc0, hcN⟩ hdne
          apply ih _ hvalws hwf2
          · intro r c
            rcases hcases r c with h | ⟨ch, hch, hv⟩
            · rw [h]
              exact hbu r c
            · exact Or.inr (hv ▸ hvalw ch hch)
          · intro e he
            rcases dictInsert_mem he with he | he
            · obtain ⟨hrd, hnb⟩ := hlg e he
              refine ⟨?_, hnb⟩
              rw [← hrd]
              unfold readCells
              apply List.map_congr_left
              intro p hp2
              apply hpres
              have hmem : getCell st.grid p.1 p.2 ∈ readCells st.grid e.2 :=
                List.mem_map.mpr ⟨p, hp2, rfl⟩
              rw [hrd] at hmem
              exact hnb _ hmem
            · subst he
              refine ⟨hread, fun ch hch => upper_ne_blank (hvalw ch hch)⟩

/-! ### The fill step -/

theorem fillCells_preserve {s : Nat → Nat} :
    ∀ (ps : List (Nat × Nat)) (g : Grid) (k : Nat) (r c : Nat),
    getCell g r c ≠ ' ' →
    getCell (fillCells s ps g k).1 r c = getCell g r c := by
  intro ps
  induction ps with
  | nil => intro g k r c _; rfl
  | cons p ps ih =>
    intro g k r c hnb
    unfold fillCells
    by_cases hblank : getCell g p.1 p.2 = ' '
    · rw [if_pos hblank]
      have hne : r ≠ p.1 ∨ c ≠ p.2 := by
        by_contra hcon
        push_neg at hcon
        rw [hcon.1, hcon.2] at hnb
        exact hnb hblank
      have hstep : getCell (setCell g p.1 p.2 (letterOf (s k))) r c
          = getCell g r c := getCell_setCell_ne hne _
      rw [ih _ _ r c (by rw [hstep]; exact hnb), hstep]
    · rw [if_neg hblank]
      exact ih _ _ r c hnb

theorem letterOf_upper (d : Nat) : isUpperCh (letterOf d) := by
  unfold letterOf
  have h : d % 26 < 26 := Nat.mod_lt _ (by norm_num)
  revert h
  generalize d % 26 = m
  intro h
  interval_cases m <;> decide

theorem fillCells_upper {N : Nat} {s : Nat → Nat} :
    ∀ (ps : List (Nat × Nat)) (g : Grid) (k : Nat),
    GridWF g N → blankOrUpper g →
    ∀ p ∈ ps, p.1 < N → p.2 < N →
    isUpperCh (getCell (fillCells s ps g k).1 p.1 p.2) := by
  intro ps
  induction ps with
  | nil => intro g k _ _ p hp; exact absurd hp (by simp)
  | cons q ps ih =>
    intro g k hwf hbu p hp h1 h2
    unfold fillCells
    by_cases hblank : getCell g q.1 q.2 = ' '
    · rw [if_pos hblank]
      have hwf1 : GridWF (setCell g q.1 q.2 (letterOf (s k))) N :=
        setCell_wf hwf _ _ _
      have hbu1 : blankOrUpper (setCell g q.1 q.2 (letterOf (s k))) := by
        intro r c
        rcases getCell_setCell_cases g r c q.1 q.2 (letterOf (s k)) with
          h | h
        · rw [h]
          exact hbu r c
        · rw [h]
          exact Or.inr (letterOf_upper _)
      rcases List.mem_cons.mp hp with rfl | hp2
      · have hval : getCell (setCell g p.1 p.2 (letterOf (s k))) p.1 p.2
            = letterOf (s k) := getCell_setCell_self hwf h1 h2 _
        have hpres := fillCells_preserve (s := s) ps
          (setCell g p.1 p.2 (letterOf (s k))) (k + 1) p.1 p.2
          (by rw [hval]; exact upper_ne_blank (letterOf_upper _))
        rw [hpres, hval]
        exact letterOf_upper _
      · exact ih _ (k + 1) hwf1 hbu1 p hp2 h1 h2
    · rw [if_neg hblank]
      rcases List.mem_cons.mp hp with rfl | hp2
      · have hup : isUpperCh (getCell g p.1 p.2) := by
          rcases hbu p.1 p.2 with h | h
          · exact absurd h hblank
          · exact h
        rw [fillCells_preserve ps g k p.1 p.2 (upper_ne_blank hup)]
        exact hup
      · exact ih g k hwf hbu p hp2 h1 h2

theorem mem_coords {N r c : Nat} : (r, c) ∈ coords N ↔ r < N ∧ c < N := by
  unfold coords
  constructor
  · intro h
    rw [List.mem_flatten] at h
    obtain ⟨l, hl, hx⟩ := h
    rw [List.mem_map] at hl
    obtain ⟨a, ha, rfl⟩ := hl
    rw [List.mem_range] at ha
    rw [List.mem_map] at hx
    obtain ⟨b, hb, he⟩ := hx
    rw [List.mem_range] at hb
    injection he with e1 e2
    subst e1
    subst e2
    exact ⟨ha, hb⟩
  · rintro ⟨h1, h2⟩
    rw [List.mem_flatten]
    refine ⟨(List.range N).map (fun cc => (r, cc)), ?_, ?_⟩
    · rw [List.mem_map]
      exact ⟨r, List.mem_range.mpr h1, rfl⟩
    · rw [List.mem_map]
      exact ⟨c, List.mem_range.mpr h2, rfl⟩

/-! ### The stable length-descending sort -/

theorem insertDesc_perm (w : Word) :
    ∀ l : List Word, (insertDesc w l).Perm (w :: l) := by
  intro l
  induction l with
  | nil => exact List.Perm.refl _
  | cons x xs ih =>
    unfold insertDesc
    by_cases h : x.length ≤ w.length
    · rw [if_pos h]
    · rw [if_neg h]
      exact (ih.cons x).trans (List.Perm.swap w x xs)

theorem sortWords_perm : ∀ l : List Word, (sortWords l).Perm l := by
  intro l
  induction l with
  | nil => exact List.Perm.refl _
  | cons w ws ih =>
    unfold sortWords
    exact (insertDesc_perm w (sortWords ws)).trans (ih.cons w)

theorem insertDesc_sorted (w : Word) :
    ∀ l : List Word,
    l.Pairwise (fun a b => b.length ≤ a.length) →
    (insertDesc w l).Pairwise (fun a b => b.length ≤ a.length) := by
  intro l
  induction l with
  | nil => intro _; simp [insertDesc]
  | cons x xs ih =>
    intro hp
    rw [List.pairwise_cons] at hp
    obtain ⟨hx, hxs⟩ := hp
    unfold insertDesc
    by_cases h : x.length ≤ w.length
    · rw [if_pos h, List.pairwise_cons]
      refine ⟨?_, List.pairwise_cons.mpr ⟨hx, hxs⟩⟩
      intro a ha
      rcases List.mem_cons.mp ha with rfl | ha
      · exact h
      · exact le_trans (hx a ha) h
    · rw [if_neg h, List.pairwise_cons]
      refine ⟨?_, ih hxs⟩
      intro a ha
      have ha2 : a ∈ w :: xs := (insertDesc_perm w xs).mem_iff.mp ha
      rcases List.mem_cons.mp ha2 with rfl | ha3
      · omega
      · exact hx a ha3

theorem sortWords_sorted : ∀ l : List Word,
    (sortWords l).Pairwise (fun a b => b.length ≤ a.length) := by
  intro l
  induction l with
  | nil => exact List.Pairwise.nil
  | cons w ws ih =>
    unfold sortWords
    exact insertDesc_sorted w (sortWords ws) ih

theorem insertDesc_filter_eq {L : Nat} {w : Word} (hw : w.length = L) :
    ∀ l : List Word,
    (insertDesc w l).filter (fun x => x.length == L)
      = w :: l.filter (fun x => x.length == L) := by
  intro l
  have hwL : ((fun x : Word => x.length == L) w) = true := by simp [hw]
  induction l with
  | nil => simp [insertDesc, List.filter_cons, hw]
  | cons x xs ih =>
    unfold insertDesc
    by_cases h : x.length ≤ w.length
    · rw [if_pos h, List.filter_cons, if_pos hwL]
    · have hxL : ¬ ((fun x : Word => x.length == L) x) = true := by
        simp only [beq_iff_eq]
        omega
      rw [if_neg h, List.filter_cons, if_neg hxL, ih,
        List.filter_cons, if_neg hxL]

theorem insertDesc_filter_ne {L : Nat} {w : Word} (hw : w.length ≠ L) :
    ∀ l : List Word,
    (insertDesc w l).filter (fun x => x.length == L)
      = l.filter (fun x => x.length == L) := by
  intro l
  have hwL : ¬ ((fun x : Word => x.length == L) w) = true := by
    simp only [beq_iff_eq]
    exact hw
  induction l with
  | nil => simp [insertDesc, List.filter_cons, hwL]
  | cons x xs ih =>
    unfold insertDesc
    by_cases h : x.length ≤ w.length
    · rw [if_pos h, List.filter_cons, if_neg hwL]
    · rw [if_neg h, List.filter_cons]
      by_cases hx : ((fun x : Word => x.length == L) x) = true
      · rw [if_pos hx, ih, List.filter_cons, if_pos hx]
      · rw [if_neg hx, ih, List.filter_cons, if_neg hx]

theorem sortWords_filter (L : Nat) : ∀ l : List Word,
    (sortWords l).filter (fun x => x.length == L)
      = l.filter (fun x => x.length == L) := by
  intro l
  induction l with
  | nil => rfl
  | cons w ws ih =>
    unfold sortWords
    by_cases hw : w.length = L
    · rw [insertDesc_filter_eq hw, ih, List.filter_cons,
        if_pos (by simp [hw])]
    · rw [insertDesc_filter_ne hw, ih, List.filter_cons,
        if_neg (by simp [hw])]

/-! ### Bookkeeping of `placed_words` and `word_locations` -/

theorem dictInsert_notmem {d : List (Word × List (Nat × Nat))} {key : Word}
    {v : List (Nat × Nat)} (h : key ∉ d.map Prod.fst) :
    dictInsert d key v = d ++ [(key, v)] := by
  unfold dictInsert
  rw [if_neg]
  intro hcon
  rw [List.any_eq_true] at hcon
  obtain ⟨p, hp, hpe⟩ := hcon
  rw [beq_iff_eq] at hpe
  exact h (List.mem_map.mpr ⟨p, hp, hpe⟩)

theorem processWords_placed_sub {N A : Nat} {s : Nat → Nat} :
    ∀ (ws : List Word) (st : GenState) (w : Word),
    w ∈ (processWords N A s ws st).placed_words →
    w ∈ st.placed_words ∨ w ∈ ws := by
  intro ws
  induction ws with
  | nil => intro st w h; exact Or.inl h
  | cons w0 ws ih =>
    intro st w h
    unfold processWords at h
    cases hp : place_word N A w0 st.grid s st.rk with
    | mk g2 rest2 =>
      cases rest2 with
      | mk res k2 =>
        rw [hp] at h
        cases res with
        | none =>
          rcases ih _ w h with h2 | h2
          · exact Or.inl h2
          · exact Or.inr (List.mem_cons.mpr (Or.inr h2))
        | some ps =>
          rcases ih _ w h with h2 | h2
          · rcases List.mem_append.mp h2 with h3 | h3
            · exact Or.inl h3
            · exact Or.inr (List.mem_cons.mpr (Or.inl (by simpa using h3)))
          · exact Or.inr (List.mem_cons.mpr (Or.inr h2))

theorem processWords_placed_len {N A : Nat} {s : Nat → Nat} :
    ∀ (ws : List Word) (st : GenState),
    (∀ w ∈ st.placed_words, w.length ≤ N) →
    ∀ w ∈ (processWords N A s ws st).placed_words, w.length ≤ N := by
  intro ws
  induction ws with
  | nil => intro st hst w h; exact hst w h
  | cons w0 ws ih =>
    intro st hst w h
    unfold processWords at h
    cases hp : place_word N A w0 st.grid s st.rk with
    | mk g2 rest2 =>
      cases rest2 with
      | mk res k2 =>
        rw [hp] at h
        cases res with
        | none =>
          exact ih ⟨g2, st.placed_words, st.word_locations, k2⟩ hst w h
        | some ps =>
          refine ih ⟨g2, st.placed_words ++ [w0],
            dictInsert st.word_locations w0 ps, k2⟩ ?_ w h
          intro w' hw'
          rcases List.mem_append.mp hw' with h3 | h3
          · exact hst w' h3
          · obtain ⟨row, col, rs, cs, hr0, hrN, hc0, hcN, hrs3, hcs3,
              hdne, hatt⟩ := place_word_some hp
            have := attemptPlace_some_length hatt hr0 hrN hc0 hcN hrs3
              hcs3 hdne
            rwa [show w' = w0 by simpa using h3]

theorem processWords_keys {N A : Nat} {s : Nat → Nat} :
    ∀ (ws : List Word) (st : GenState),
    ws.Nodup →
    (∀ w ∈ ws, w ∉ st.placed_words) →
    st.word_locations.map Prod.fst = st.placed_words →
    (processWords N A s ws st).word_locations.map Prod.fst
      = (processWords N A s ws st).placed_words := by
  intro ws
  induction ws with
  | nil => intro st _ _ h; exact h
  | cons w0 ws ih =>
    intro st hnd hnew hkeys
    rw [List.nodup_cons] at hnd
    unfold processWords
    cases hp : place_word N A w0 st.grid s st.rk with
    | mk g2 rest2 =>
      cases rest2 with
      | mk res k2 =>
        cases res with
        | none =>
          exact ih _ hnd.2
            (fun w hw => hnew w (List.mem_cons.mpr (Or.inr hw))) hkeys
        | some ps =>
          apply ih _ hnd.2
          · intro w hw
            rw [List.mem_append]
            rintro (h2 | h2)
            · exact hnew w (List.mem_cons.mpr (Or.inr hw)) h2
            · exact hnd.1 ((show w = w0 by simpa using h2) ▸ hw)
          · show (dictInsert st.word_locations w0 ps).map Prod.fst = _
            rw [dictInsert_notmem (by
              rw [hkeys]
              exact hnew w0 (List.mem_cons_self w0 ws)), List.map_append,
              hkeys]
            rfl

/-! ### Word-list normalisation -/

theorem valid_char_not_space {c : Char} (h : 'A' ≤ c ∧ c ≤ 'Z') :
    isPySpace c = false := by
  unfold isPySpace
  have h1 : c ≠ ' ' := by intro hcon; subst hcon; exact absurd h (by decide)
  have h2 : c ≠ '\t' := by intro hcon; subst hcon; exact absurd h (by decide)
  have h3 : c ≠ '\n' := by intro hcon; subst hcon; exact absurd h (by decide)
  have h4 : c ≠ '\r' := by intro hcon; subst hcon; exact absurd h (by decide)
  have h5 : c ≠ '\x0b' := by
    intro hcon; subst hcon; exact absurd h (by decide)
  have h6 : c ≠ '\x0c' := by
    intro hcon; subst hcon; exact absurd h (by decide)
  simp [h1, h2, h3, h4, h5, h6]

theorem pyUpper_of_upper {c : Char} (h : 'A' ≤ c ∧ c ≤ 'Z') :
    pyUpper c = c := by
  unfold pyUpper
  rw [if_neg]
  rintro ⟨ha, _⟩
  have hlt : c < 'a' := lt_of_le_of_lt h.2 (by decide)
  exact absurd ha (not_le.mpr hlt)

theorem word_map_pyUpper {w : Word} (h : ∀ c ∈ w, 'A' ≤ c ∧ c ≤ 'Z') :
    w.map pyUpper = w := by
  have h2 : w.map pyUpper = w.map id :=
    List.map_congr_left (fun c hc => pyUpper_of_upper (h c hc))
  rw [h2, List.map_id]

theorem initWordList_of_valid {wl : List Word}
    (h : ∀ w ∈ wl, ValidWord w) : initWordList wl = wl := by
  unfold initWordList
  have hfilter : wl.filter (fun w => w.any (fun c => !(isPySpace c))) = wl := by
    rw [List.filter_eq_self]
    intro w hw
    obtain ⟨hne, hch⟩ := h w hw
    cases w with
    | nil => exact absurd rfl hne
    | cons c cs =>
      rw [List.any_eq_true]
      refine ⟨c, List.mem_cons_self c cs, ?_⟩
      rw [valid_char_not_space (hch c (List.mem_cons_self c cs))]
      rfl
  rw [hfilter]
  have h2 : wl.map (fun w => w.map pyUpper) = wl.map id :=
    List.map_congr_left (fun w hw => word_map_pyUpper (h w hw).2)
  rw [h2, List.map_id]

theorem initWordList_mem {wl : List Word} {w : Word}
    (h : w ∈ initWordList wl) : ∃ w0 ∈ wl, w = w0.map pyUpper := by
  unfold initWordList at h
  rw [List.mem_map] at h
  obtain ⟨w0, hw0, he⟩ := h
  exact ⟨w0, (List.mem_filter.mp hw0).1, he.symm⟩

/-! ### Putting `generate_puzzle` together -/

theorem generate_puzzle_def (wl : List Word) (N A : Nat) (s : Nat → Nat) :
    generate_puzzle wl N A s =
      ⟨(fill_empty_cells N (processWords N A s (sortWords (initWordList wl))
          ⟨mkGrid N, [], [], 0⟩).grid s
          (processWords N A s (sortWords (initWordList wl))
          ⟨mkGrid N, [], [], 0⟩).rk).1,
        (processWords N A s (sortWords (initWordList wl))
          ⟨mkGrid N, [], [], 0⟩).placed_words,
        (processWords N A s (sortWords (initWordList wl))
          ⟨mkGrid N, [], [], 0⟩).word_locations⟩ := rfl

theorem sorted_words_upper {wl : List Word} (hval : ∀ w ∈ wl, ValidWord w) :
    ∀ w' ∈ sortWords (initWordList wl), ∀ ch ∈ w', isUpperCh ch := by
  intro w' hw' ch hch
  rw [initWordList_of_valid hval] at hw'
  have hw2 : w' ∈ wl := (sortWords_perm wl).mem_iff.mp hw'
  exact (hval w' hw2).2 ch hch

theorem generate_state_inv {wl : List Word} {N A : Nat} {s : Nat → Nat}
    (hval : ∀ w ∈ wl, ValidWord w) :
    GridWF (processWords N A s (sortWords (initWordList wl))
      ⟨mkGrid N, [], [], 0⟩).grid N ∧
    blankOrUpper (processWords N A s (sortWords (initWordList wl))
      ⟨mkGrid N, [], [], 0⟩).grid ∧
    LocsGood (processWords N A s (sortWords (initWordList wl))
        ⟨mkGrid N, [], [], 0⟩).grid
      (processWords N A s (sortWords (initWordList wl))
        ⟨mkGrid N, [], [], 0⟩).word_locations :=
  processWords_inv (sortWords (initWordList wl)) ⟨mkGrid N, [], [], 0⟩
    (sorted_words_upper hval) (mkGrid_wf N)
    (fun r c => Or.inl (getCell_mkGrid N r c))
    (fun e he => absurd he (List.not_mem_nil e))

theorem generate_all_upper {wl : List Word} {N A : Nat} {s : Nat → Nat}
    (hval : ∀ w ∈ wl, ValidWord w) :
    ∀ r c, r < N → c < N →
    isUpperCh (getCell (generate_puzzle wl N A s).grid r c) := by
  intro r c hr hc
  obtain ⟨hwf1, hbu1, _⟩ := generate_state_inv (N := N) (A := A) (s := s) hval
  rw [generate_puzzle_def]
  unfold fill_empty_cells
  exact fillCells_upper (coords N) _ _ hwf1 hbu1 (r, c)
    (mem_coords.mpr ⟨hr, hc⟩) hr hc

theorem generate_placed_mem {wl : List Word} {N A : Nat} {s : Nat → Nat}
    {w : Word} (h : w ∈ (generate_puzzle wl N A s).placed_words) :
    w ∈ initWordList wl := by
  rw [generate_puzzle_def] at h
  rcases processWords_placed_sub (sortWords (initWordList wl))
      ⟨mkGrid N, [], [], 0⟩ w h with h2 | h2
  · exact absurd h2 (List.not_mem_nil w)
  · exact (sortWords_perm (initWordList wl)).mem_iff.mp h2

/-! ### The claims -/

/-- C1: for every input word list whose words satisfy the `Word`
precondition (non-empty, uppercase letters, no whitespace), after
`generate_puzzle` completes, reading the grid cells along each recorded
placement in order reconstructs the placed word exactly. -/
theorem c1_placement_roundtrip (wl : List Word) (N A : Nat) (s : Nat → Nat)
    (hval : ∀ w ∈ wl, ValidWord w) (w : Word) (ps : List (Nat × Nat))
    (hmem : (w, ps) ∈ (generate_puzzle wl N A s).word_locations) :
    readCells (generate_puzzle wl N A s).grid ps = w := by
  obtain ⟨hwf1, hbu1, hlg1⟩ :=
    generate_state_inv (N := N) (A := A) (s := s) hval
  rw [generate_puzzle_def] at hmem ⊢
  dsimp only at hmem ⊢
  obtain ⟨hread, hnb⟩ := hlg1 (w, ps) hmem
  dsimp only at hread hnb
  unfold fill_empty_cells
  rw [← hread]
  unfold readCells
  apply List.map_congr_left
  intro p hp
  apply fillCells_preserve
  have hmem2 : getCell (processWords N A s (sortWords (initWordList wl))
      ⟨mkGrid N, [], [], 0⟩).grid p.1 p.2
      ∈ readCells (processWords N A s (sortWords (initWordList wl))
        ⟨mkGrid N, [], [], 0⟩).grid ps := List.mem_map.mpr ⟨p, hp, rfl⟩
  rw [hread] at hmem2
  exact hnb _ hmem2

/-- Witness for C1: on a concrete run, the single placed word `"A"` is
recorded at cell `(0, 0)` and reads back from the grid. -/
theorem c1_witness :
    readCells (generate_puzzle [['A']] 1 1 (fun _ => 0)).grid [(0, 0)]
      = ['A'] :=
  c1_placement_roundtrip [['A']] 1 1 (fun _ => 0) (by decide) ['A']
    [(0, 0)] (by decide)

/-- C2: a single placement attempt that fails — because the end cell falls
outside the grid, or because some cell along the path is non-blank and
holds a letter different from the word's letter there — returns the grid
unchanged together with the failure flag: letters are only written after
the whole word has been validated. -/
theorem c2_failed_attempt_no_write (N : Nat) (g : Grid) (w : Word)
    (row col rs cs : Int)
    (h : ¬(0 ≤ row + ((w.length : Int) - 1) * rs ∧
          row + ((w.length : Int) - 1) * rs < (N : Int) ∧
          0 ≤ col + ((w.length : Int) - 1) * cs ∧
          col + ((w.length : Int) - 1) * cs < (N : Int)) ∨
        (∃ i, ∃ hi : i < w.length,
          getCell g (row + i * rs).toNat (col + i * cs).toNat ≠ ' ' ∧
          getCell g (row + i * rs).toNat (col + i * cs).toNat
            ≠ w.get ⟨i, hi⟩)) :
    attemptPlace N g w row col rs cs = (g, none) ∧
    ∀ r c, getCell (attemptPlace N g w row col rs cs).1 r c
      = getCell g r c := by
  have hmain : attemptPlace N g w row col rs cs = (g, none) := by
    rcases h with h | h
    · unfold attemptPlace
      rw [if_neg h]
    · have hnone := collectPositions_none_of_conflict w row col rs cs h
      unfold attemptPlace
      split
      · rw [hnone]
      · rfl
  exact ⟨hmain, fun r c => by rw [hmain]⟩

/-- Witness for C2: placing `"A"` over a grid cell already holding `'B'`
fails and leaves the grid unchanged. -/
theorem c2_witness :
    attemptPlace 1 [['B']] ['A'] 0 0 0 1 = ([['B']], none) :=
  (c2_failed_attempt_no_write 1 [['B']] ['A'] 0 0 0 1
    (Or.inr ⟨0, by decide, by decide⟩)).1

/-- C3 counterexample: with zero words supplied, `generate_puzzle` does not
reject the call — it returns a fully random-filled 3×3 grid (here all `'A'`
under the constant-zero draw stream) with an empty placed-word set, so a
grid *is* produced and no `EmptyWordList`-style failure occurs. -/
theorem c3_counterexample :
    (generate_puzzle [] 3 100 (fun _ => 0)).grid
      = [['A', 'A', 'A'], ['A', 'A', 'A'], ['A', 'A', 'A']] ∧
    (generate_puzzle [] 3 100 (fun _ => 0)).placed_words = [] ∧
    (generate_puzzle [] 3 100 (fun _ => 0)).word_locations = [] := by
  decide

/-- C3 (amended): when zero non-empty words are supplied, the builder
raises no error: `generate_puzzle` completes normally and returns a fully
filled grid of uppercase letters with an empty placed-word list and an
empty location map (the empty-word-list rejection happens only in the CLI
caller, before the builder is invoked). -/
theorem c3_amended_no_rejection (N A : Nat) (s : Nat → Nat) :
    (generate_puzzle [] N A s).placed_words = [] ∧
    (generate_puzzle [] N A s).word_locations = [] ∧
    ∀ r c, r < N → c < N →
      isUpperCh (getCell (generate_puzzle [] N A s).grid r c) := by
  refine ⟨rfl, rfl, ?_⟩
  exact generate_all_upper (fun w hw => absurd hw (List.not_mem_nil w))

/-- Witness for C3 (amended) at a concrete size. -/
theorem c3_amended_witness :
    isUpperCh (getCell (generate_puzzle [] 2 1 (fun _ => 0)).grid 0 0) :=
  (c3_amended_no_rejection 2 1 (fun _ => 0)).2.2 0 0 (by decide) (by decide)

/-- C4 counterexample: the constructor does not trim entries.  On the
input `" A"` the builder keeps `" A"` verbatim (only uppercased), while
trimming would give `"A"`; the word the builder works with therefore still
contains whitespace. -/
theorem c4_counterexample :
    initWordList [[' ', 'A']] = [[' ', 'A']] ∧
    pyStrip [' ', 'A'] = ['A'] ∧ ([' ', 'A'] : Word) ≠ ['A'] := by
  decide

/-- C4 (amended): before placement begins every kept entry is the
uppercased original *verbatim* — whitespace-only entries are dropped but
surrounding whitespace is not trimmed — and thereafter words never grow,
shrink or mutate: every placed word is exactly one of the builder's
processed words. -/
theorem c4_amended_upper_only (wl : List Word) (N A : Nat)
    (s : Nat → Nat) :
    (∀ w ∈ initWordList wl, ∃ w0 ∈ wl, w = w0.map pyUpper) ∧
    (∀ w ∈ (generate_puzzle wl N A s).placed_words,
      w ∈ initWordList wl) := by
  constructor
  · intro w h
    exact initWordList_mem h
  · intro w h
    exact generate_placed_mem h

/-- Witness for C4 (amended): `"a"` is kept as its uppercased image. -/
theorem c4_amended_witness :
    ∃ w0 ∈ ([['a']] : List Word), (['A'] : Word) = w0.map pyUpper :=
  (c4_amended_upper_only [['a']] 1 1 (fun _ => 0)).1 ['A'] (by decide)

/-- C5 counterexample: a non-positive grid size is not rejected — the
constructor silently allocates an empty grid (Python's `range` is empty
for sizes `≤ 0`), so no `InvalidGridSize`-style failure occurs before
allocation. -/
theorem c5_counterexample : initGrid 0 = [] ∧ initGrid (-3) = [] := by
  decide

/-- C5 (amended): the constructor performs no grid-size validation: every
non-positive integer size is accepted and yields an empty (0-row) grid
instead of an `InvalidGridSize` error.  (A non-integer size is outside the
typed embedding; in the source it is only stopped incidentally, by
`argparse`'s `int` conversion or a `TypeError` from `range`, never by an
`InvalidGridSize` check.) -/
theorem c5_amended_no_validation (n : Int) (h : n ≤ 0) : initGrid n = [] := by
  unfold initGrid
  rw [Int.toNat_of_nonpos h]
  rfl

/-- Witness for C5 (amended) at size `-1`. -/
theorem c5_amended_witness : initGrid (-1) = [] :=
  c5_amended_no_validation (-1) (by decide)

/-- C6: the word order used by `generate_puzzle` — `sortWords`, the
embedding of `sorted(word_list, key=len, reverse=True)` — is a permutation
of the builder's word list, has pairwise non-increasing lengths (strictly
descending across distinct lengths), and is stable: for every length `L`
the words of length `L` appear in exactly their input order. -/
theorem c6_sort_descending_stable (wl : List Word) :
    (sortWords wl).Perm wl ∧
    (sortWords wl).Pairwise (fun a b => b.length ≤ a.length) ∧
    ∀ L, (sortWords wl).filter (fun w => w.length == L)
      = wl.filter (fun w => w.length == L) :=
  ⟨sortWords_perm wl, sortWords_sorted wl, fun L => sortWords_filter L wl⟩

/-- C7: a word longer than the grid size fails every placement attempt at
the bounds check, for every random stream, start cursor and attempt
budget, leaving the grid unchanged and consuming the whole budget; hence
it is never in the placed-word list of any run, and generation completes
normally. -/
theorem c7_too_long_always_dropped (N : Nat) (w : Word)
    (hL : N < w.length) :
    (∀ (A : Nat) (g : Grid) (s : Nat → Nat) (k : Nat),
      place_word N A w g s k = (g, none, k + 3 * A)) ∧
    (∀ (wl : List Word) (A : Nat) (s : Nat → Nat),
      w ∉ (generate_puzzle wl N A s).placed_words) := by
  constructor
  · intro A g s k
    exact placeWordAux_too_long hL A g k
  · intro wl A s hmem
    rw [generate_puzzle_def] at hmem
    have hlen := processWords_placed_len (sortWords (initWordList wl))
      ⟨mkGrid N, [], [], 0⟩ (fun w' h => absurd h (List.not_mem_nil w'))
      w hmem
    omega

/-- Witness for C7: the two-letter word `"AB"` on a 1×1 grid fails every
attempt and is never placed. -/
theorem c7_witness :
    place_word 1 2 ['A', 'B'] [[' ']] (fun _ => 0) 0
      = ([[' ']], none, 0 + 3 * 2) ∧
    ['A', 'B'] ∉ (generate_puzzle [['A', 'B']] 1 5 (fun _ => 0)).placed_words :=
  ⟨(c7_too_long_always_dropped 1 ['A', 'B'] (by decide)).1 2 [[' ']]
      (fun _ => 0) 0,
    (c7_too_long_always_dropped 1 ['A', 'B'] (by decide)).2 [['A', 'B']] 5
      (fun _ => 0)⟩

/-- C8: for every input word list satisfying the `Word` precondition,
after `generate_puzzle` completes no cell of the grid is blank — every
cell holds one of the 26 uppercase letters (and the returned grid is
immutable thereafter, so this holds for everything done after the fill
step). -/
theorem c8_no_blank_cells (wl : List Word) (N A : Nat) (s : Nat → Nat)
    (hval : ∀ w ∈ wl, ValidWord w) :
    ∀ r c, r < N → c < N →
    isUpperCh (getCell (generate_puzzle wl N A s).grid r c) :=
  generate_all_upper hval

/-- Witness for C8 on a concrete run. -/
theorem c8_witness :
    isUpperCh (getCell (generate_puzzle [['A']] 1 1 (fun _ => 0)).grid 0 0) :=
  c8_no_blank_cells [['A']] 1 1 (fun _ => 0) (by decide) 0 0 (by decide)
    (by decide)

/-- C9: generation is deterministic in the random source: two runs with
identical word list, grid size and attempt budget, whose seeded random
streams agree on every draw, produce identical grids, placed-word lists
and location maps. -/
theorem c9_deterministic (wl : List Word) (N A : Nat) (s₁ s₂ : Nat → Nat)
    (h : ∀ n, s₁ n = s₂ n) :
    generate_puzzle wl N A s₁ = generate_puzzle wl N A s₂ := by
  have h2 : s₁ = s₂ := funext h
  rw [h2]

/-- Witness for C9 on a concrete run. -/
theorem c9_witness :
    generate_puzzle [['A']] 1 1 (fun _ => 0)
      = generate_puzzle [['A']] 1 1 (fun _ => 0) :=
  c9_deterministic [['A']] 1 1 (fun _ => 0) (fun _ => 0) (fun _ => rfl)

/-- C10: if the input entries are pairwise distinct after uppercasing, the
key sequence of the word-location map equals the placed-word list, element
for element and in the same (placement) order. -/
theorem c10_keys_match_placed (wl : List Word) (N A : Nat) (s : Nat → Nat)
    (h : (wl.map (fun w => w.map pyUpper)).Nodup) :
    (generate_puzzle wl N A s).word_locations.map Prod.fst
      = (generate_puzzle wl N A s).placed_words := by
  rw [generate_puzzle_def]
  apply processWords_keys
  · have h1 : (initWordList wl).Nodup := by
      unfold initWordList
      exact ((List.filter_sublist wl).map _).nodup h
    exact (sortWords_perm (initWordList wl)).symm.nodup h1
  · intro w _
    exact List.not_mem_nil w
  · rfl

/-- Witness for C10 on a concrete run. -/
theorem c10_witness :
    (generate_puzzle [['A']] 1 1 (fun _ => 0)).word_locations.map Prod.fst
      = (generate_puzzle [['A']] 1 1 (fun _ => 0)).placed_words :=
  c10_keys_match_placed [['A']] 1 1 (fun _ => 0) (by decide)

end WordSearch
